import Mathlib

/-!
Verification development for the vector document store in this repository
(`vectordb-client-python/vector_db_crud.py` and `vectordb/advanced_example.py`).

The Python code delegates persistence to a ChromaDB collection.  That
collection's behaviour is not part of the repository's sources, so the
persistence primitives below are modelled from the specification's
persistence contract (upsert semantics, lazy dimension lock, non-raising
delete/get on absent ids).  Everything layered on top of those primitives is
a direct translation of the repository's Python functions.

Embeddings are sequences of rationals (the spec treats vectors abstractly
via the EmbeddingGateway; the gateway itself is an explicit function
parameter `embed : String → List ℚ`).  Metadata values are the spec's closed
scalar type: string, number, or boolean.
-/

namespace VecStore

/-- Metadata scalar value: string, number, or boolean (spec §3 data model). -/
inductive MValue where
  | str (s : String)
  | num (q : ℚ)
  | bool (b : Bool)
deriving DecidableEq, Repr

/-- A metadata mapping: association list from string keys to scalar values
(Python dict; keys unique in any state reachable from Python). -/
abbrev Metadata := List (String × MValue)

/-- A stored document: id, text, embedding vector, metadata. -/
structure Doc where
  id : String
  text : String
  embedding : List ℚ
  metadata : Metadata
deriving DecidableEq, Repr

/-- Collection state: the stored documents (in persistence order) and the
lazily-locked embedding dimension. -/
structure Store where
  docs : List Doc
  dim : Option ℕ
deriving DecidableEq, Repr

/-- Error kinds surfaced by the persistence layer (spec §7). -/
inductive DBError where
  | DimensionMismatch
  | InvalidArgument
deriving DecidableEq, Repr

/-- Observable side effects of a call, used to state ordering properties
(how many embedding computations happened, which batches were committed). -/
inductive Event where
  | embedOne (text : String)
  | embedBatch (texts : List String)
  | addCall (ids : List String)
deriving DecidableEq, Repr

/-- Modelled from the spec: persistence-side point lookup
(`get(collection, id)`); returns the stored document or nothing, never an
error (spec §7: NotFound is an explicit empty result). -/
def getById (s : Store) (id : String) : Option Doc :=
  s.docs.find? (fun d => d.id = id)

/-- Modelled from the spec: `count(collection)` — number of stored documents. -/
def countDocs (s : Store) : ℕ :=
  s.docs.length

/-- Modelled from the spec: single-document upsert into the document list —
inserting a duplicate id overwrites in place rather than duplicating
(spec §3 invariants); a fresh id is appended. -/
def upsertDoc (docs : List Doc) (d : Doc) : List Doc :=
  if docs.any (fun x => x.id = d.id) then
    docs.map (fun x => if x.id = d.id then d else x)
  else
    docs ++ [d]

/-- Sequential-dimension check for a batch: each embedding length must agree
with the (possibly still unset) collection dimension, the first row locking
it (spec §4.1 lazy dimension fixing). -/
def dimsOk (d : Option ℕ) : List ℕ → Bool
  | [] => true
  | n :: ns =>
    match d with
    | none => dimsOk (some n) ns
    | some m => n = m && dimsOk (some m) ns

/-- Modelled from the spec: the persistence-side batched add
(`collection.add` in the source).  Validates that all four lists have equal
length (mismatched lengths are an `InvalidArgument`, spec §4.2), then checks
every embedding against the lazily-locked dimension (`DimensionMismatch`
with no partial write, spec §4.1), then upserts every row in order
(spec §3: duplicate ids overwrite). -/
def addMany (s : Store) (ids : List String) (texts : List String)
    (embeds : List (List ℚ)) (mds : List Metadata) : Except DBError Store :=
  if ids.length = texts.length ∧ embeds.length = texts.length ∧
      mds.length = texts.length then
    if dimsOk s.dim (embeds.map List.length) then
      let rows := (ids.zip (texts.zip (embeds.zip mds))).map
        (fun r => Doc.mk r.1 r.2.1 r.2.2.1 r.2.2.2)
      Except.ok
        { docs := rows.foldl upsertDoc s.docs
          dim := s.dim <|> (embeds.head?.map List.length) }
    else
      Except.error DBError.DimensionMismatch
  else
    Except.error DBError.InvalidArgument

/-- Modelled from the spec: persistence-side delete by ids; deleting absent
ids is a silent no-op, never an error (spec §7: NotFound is never raised by
persistence). -/
def deleteByIds (s : Store) (ids : List String) : Store :=
  { s with docs := s.docs.filter (fun d => ¬ ids.contains d.id) }

/-! ## CRUD wrapper (`vectordb-client-python/vector_db_crud.py`) -/

/-- Translation of `VectorDB.add_document`: defaults the id to a freshly
generated one (`genId` stands for `uuid.uuid4()`), defaults metadata to the
empty mapping, computes the embedding, then adds via the persistence layer.
Returns the id used; on a persistence error the store is unchanged. -/
def add_document (embed : String → List ℚ) (s : Store) (text : String)
    (metadata : Option Metadata) (document_id : Option String)
    (genId : String) : Except DBError String × Store :=
  let id := document_id.getD genId
  let md := metadata.getD []
  let e := embed text
  match addMany s [id] [text] [e] [md] with
  | Except.ok s1 => (Except.ok id, s1)
  | Except.error err => (Except.error err, s)

/-- Translation of `VectorDB.add_documents_batch`: defaults ids to freshly
generated ones (one per text, from `freshIds`) and metadatas to empty
mappings, computes every embedding one by one (the list comprehension at
line 125 — each computation is recorded as an `Event.embedOne`), and only
then calls the persistence-side add, which validates list lengths. -/
def add_documents_batch (embed : String → List ℚ) (s : Store)
    (texts : List String) (metadatas : Option (List Metadata))
    (ids : Option (List String)) (freshIds : List String) :
    (Except DBError (List String)) × Store × List Event :=
  let theIds := ids.getD (freshIds.take texts.length)
  let mds := metadatas.getD (texts.map (fun _ => []))
  let embeds := texts.map embed
  let trace := texts.map Event.embedOne
  match addMany s theIds texts embeds mds with
  | Except.ok s1 => (Except.ok theIds, s1, trace ++ [Event.addCall theIds])
  | Except.error err => (Except.error err, s, trace)

/-- Translation of `VectorDB.get_document`: fetch by id; returns the id,
text and metadata, or nothing when the id is absent (never raises). -/
def get_document (s : Store) (document_id : String) :
    Option (String × String × Metadata) :=
  (getById s document_id).map (fun d => (d.id, d.text, d.metadata))

/-- Translation of `VectorDB.count_documents`. -/
def count_documents (s : Store) : ℕ :=
  countDocs s

/-- Translation of `VectorDB.update_document`: with neither new text nor new
metadata the update dictionary stays empty and the function returns `false`
without touching the collection; otherwise the stored document with that id
(if any) is rewritten — new text regenerates the embedding, new metadata
replaces the old mapping — and the function returns `true`. -/
def update_document (embed : String → List ℚ) (s : Store)
    (document_id : String) (text : Option String)
    (metadata : Option Metadata) : Bool × Store :=
  match text, metadata with
  | none, none => (false, s)
  | _, _ =>
    let docs := s.docs.map (fun d =>
      if d.id = document_id then
        { d with
          text := (text.getD d.text)
          embedding := match text with
            | some t => embed t
            | none => d.embedding
          metadata := metadata.getD d.metadata }
      else d)
    (true, { s with docs := docs })

/-- Translation of `VectorDB.delete_document`: persistence delete by a
one-element id list; Chroma-style delete never raises for an absent id, so
the function reaches its `return True` in every case. -/
def delete_document (s : Store) (document_id : String) : Bool × Store :=
  (true, deleteByIds s [document_id])

/-! ## Advanced module (`vectordb/advanced_example.py`) -/

/-- Equality-AND metadata filter (spec §4.2): every key/value pair of the
filter must occur in the document's metadata. -/
def matchesFilter (flt : Option Metadata) (d : Doc) : Bool :=
  match flt with
  | none => true
  | some kvs => kvs.all (fun kv => d.metadata.contains kv)

/-- One row of a `search_similar` result set. -/
structure SearchHit where
  id : String
  document : String
  metadata : Metadata
  distance : ℚ
deriving DecidableEq, Repr

/-- Ranking order of the persistence-side nearest-neighbour query:
ascending by distance, ties broken by document id ascending (spec §4.4
step 3). -/
def leDistId (a b : SearchHit) : Bool :=
  decide (a.distance < b.distance ∨ (a.distance = b.distance ∧ a.id ≤ b.id))

namespace Adv

/-- Translation of `AdvancedVectorDB.search_similar`: embeds the query and
asks persistence for the `n_results` nearest stored documents.  The
persistence-side `nearest` primitive is modelled from the spec: all
documents passing the filter, ranked by the distance between the query
embedding and the stored embedding (the metric `dist` is the storage
engine's, hence a parameter), ascending with ties broken by id, truncated
to `n_results`. -/
def search_similar (embed : String → List ℚ) (dist : List ℚ → List ℚ → ℚ)
    (s : Store) (query_text : String) (n_results : ℕ)
    (flt : Option Metadata) : List SearchHit :=
  let qe := embed query_text
  let hits := (s.docs.filter (matchesFilter flt)).map
    (fun d => SearchHit.mk d.id d.text d.metadata (dist qe d.embedding))
  (hits.mergeSort leDistId).take n_results

/-- Lowercase whitespace tokenization, Python `text.lower().split()`:
split on whitespace runs, dropping empty pieces. -/
def tokens (s : String) : List String :=
  (s.toLower.split Char.isWhitespace).filter (fun t => ¬ t = "")

/-- The token set of a text (Python `set(text.lower().split())`). -/
def tokenSet (s : String) : Finset String :=
  (tokens s).toFinset

/-- Keyword score of a document against a query token set:
`|query_tokens ∩ doc_tokens| / |query_tokens|`, and `0` when the query has
no tokens. -/
def kwScore (qks : Finset String) (document : String) : ℚ :=
  if qks = ∅ then 0
  else ((qks ∩ tokenSet document).card : ℚ) / (qks.card : ℚ)

/-- One row of a `hybrid_search` result set.  As in the source, the
`semantic_score` field stores the raw distance returned by the semantic
search; the quantity `1 - distance` enters only the combined score. -/
structure HybridItem where
  id : String
  document : String
  semantic_score : ℚ
  keyword_score : ℚ
  combined_score : ℚ
deriving DecidableEq, Repr

/-- Descending order on combined score (Python
`sort(key=lambda x: x.combined_score, reverse=True)`, a stable sort). -/
def leCombined (a b : HybridItem) : Bool :=
  decide (b.combined_score ≤ a.combined_score)

/-- Scoring of one semantic candidate inside `hybrid_search`:
keyword score from token overlap, combined score
`(1 - keyword_weight) * (1 - distance) + keyword_weight * keyword_score`. -/
def scoreItem (keyword_weight : ℚ) (qks : Finset String) (r : SearchHit) :
    HybridItem :=
  let ks := kwScore qks r.document
  HybridItem.mk r.id r.document r.distance ks
    ((1 - keyword_weight) * (1 - r.distance) + keyword_weight * ks)

/-- Translation of `AdvancedVectorDB.hybrid_search`: fetch `n_results * 2`
semantic candidates, score each against the query token set, sort by
combined score descending (stable), truncate to `n_results`; also returns
`total_found`, the number of scored candidates before truncation. -/
def hybrid_search (embed : String → List ℚ) (dist : List ℚ → List ℚ → ℚ)
    (s : Store) (query : String) (n_results : ℕ) (keyword_weight : ℚ) :
    List HybridItem × ℕ :=
  let sem := search_similar embed dist s query (n_results * 2) none
  let qks := tokenSet query
  let items := sem.map (scoreItem keyword_weight qks)
  ((items.mergeSort leCombined).take n_results, items.length)

/-- Claim-side scoring of one candidate, written from the spec's hybrid
scoring steps: keyword score is the token-overlap fraction
`|query_tokens ∩ doc_tokens| / |query_tokens|` (0 for a token-less query),
semantic score is `1 - distance`, and the combined score is
`(1 - keyword_weight) * semantic_score + keyword_weight * keyword_score`. -/
def specScore (keyword_weight : ℚ) (query : String) (r : SearchHit) :
    HybridItem :=
  let query_tokens := tokenSet query
  let keyword_score : ℚ :=
    if query_tokens = ∅ then 0
    else ((query_tokens ∩ tokenSet r.document).card : ℚ) / (query_tokens.card : ℚ)
  let semantic_score : ℚ := 1 - r.distance
  HybridItem.mk r.id r.document r.distance keyword_score
    ((1 - keyword_weight) * semantic_score + keyword_weight * keyword_score)

/-- Claim-side hybrid pipeline: fetch `2k` candidates via the semantic
search, score each, sort by combined score descending, truncate to `k`. -/
def hybridSpec (embed : String → List ℚ) (dist : List ℚ → List ℚ → ℚ)
    (s : Store) (query : String) (k : ℕ) (w : ℚ) : List HybridItem :=
  (((search_similar embed dist s query (2 * k) none).map
      (specScore w query)).mergeSort leCombined).take k

/-- Scoring in which the combined score is the token-overlap fraction
itself — the ranking key the claim says governs `keyword_weight = 1`. -/
def pureKeywordItem (query : String) (r : SearchHit) : HybridItem :=
  let ks := kwScore (tokenSet query) r.document
  HybridItem.mk r.id r.document r.distance ks ks

/-- Chunk loop of `AdvancedVectorDB.add_documents_batch`: Python
`for i in range(0, total_docs, batch_size)` — one iteration per chunk,
slicing each of the three lists at `[i : i + batch_size]`, one batched
embedding computation and one persistence add per chunk, extending the
accumulated id list after each successful chunk.  A failing chunk stops the
loop; previously committed chunks stay committed. -/
def ingestGo (embed : String → List ℚ) (c : ℕ) (texts : List String)
    (mds : List Metadata) (ids : List String) :
    ℕ → ℕ → Store → List String → List Event →
    (Except DBError (List String)) × Store × List Event
  | 0, _, s, acc, tr => (Except.ok acc, s, tr)
  | k + 1, i, s, acc, tr =>
    let bt := (texts.drop i).take c
    let bm := (mds.drop i).take c
    let bi := (ids.drop i).take c
    let es := bt.map embed
    match addMany s bi bt es bm with
    | Except.ok s1 =>
      ingestGo embed c texts mds ids k (i + c) s1 (acc ++ bi)
        (tr ++ [Event.embedBatch bt, Event.addCall bi])
    | Except.error e => (Except.error e, s, tr ++ [Event.embedBatch bt])

/-- Translation of `AdvancedVectorDB.add_documents_batch`: iterates the
chunk loop `⌈texts.length / batch_size⌉` times (the iteration count of
`range(0, len(texts), batch_size)`).  A zero `batch_size` is Python's
`range() arg 3 must not be zero` failure, surfaced here as an argument
error with nothing done. -/
def add_documents_batch (embed : String → List ℚ) (s : Store)
    (texts : List String) (metadatas : List Metadata) (ids : List String)
    (batch_size : ℕ) : (Except DBError (List String)) × Store × List Event :=
  if batch_size = 0 then (Except.error DBError.InvalidArgument, s, [])
  else
    ingestGo embed batch_size texts metadatas ids
      ((texts.length + batch_size - 1) / batch_size) 0 s [] []

/-- The statistics record returned by `get_statistics`; the two metadata
fields are absent (as in the Python dict) when the collection is empty. -/
structure Stats where
  total_documents : ℕ
  metadata_fields : Option (Finset String)
  metadata_unique_counts : Option (String → ℕ)

/-- Python `str(v)` on a metadata scalar. -/
def stringify : MValue → String
  | MValue.str s => s
  | MValue.num q => toString q.num ++ "/" ++ toString q.den
  | MValue.bool b => if b then "True" else "False"

/-- Union of all metadata keys over a list of metadata mappings. -/
def metaKeys (ms : List Metadata) : Finset String :=
  ms.foldl (fun acc m => acc ∪ (m.map Prod.fst).toFinset) ∅

/-- Python `[meta.get(key) for meta in metadatas if key in meta]`: the
values under `key` of exactly those mappings that have `key`. -/
def keyValues (ms : List Metadata) (key : String) : List MValue :=
  ms.filterMap (fun m => (m.find? (fun p => p.1 = key)).map Prod.snd)

/-- Python `len(set(str(v) for v in values if v is not None))`: the number
of distinct stringified values under `key`.  Metadata values are scalars
(spec §3), so the `is not None` filter removes nothing. -/
def distinctStrCount (ms : List Metadata) (key : String) : ℕ :=
  ((keyValues ms key).map stringify).toFinset.card

/-- Translation of `AdvancedVectorDB.get_statistics`: always reports the
document count; reports the key union and per-key distinct-value counts
only when the metadata list is non-empty (Python truthiness of
`all_docs['metadatas']`). -/
def get_statistics (s : Store) : Stats :=
  let ms := s.docs.map (fun d => d.metadata)
  if ms.isEmpty then
    Stats.mk s.docs.length none none
  else
    Stats.mk s.docs.length (some (metaKeys ms)) (some (distinctStrCount ms))

/-- Whether a document's metadata has the key `k` (claim-side phrasing of
Python `key in meta`). -/
def hasKey (d : Doc) (k : String) : Bool :=
  (d.metadata.find? (fun p => p.1 = k)).isSome

/-- The stringified value a document holds under key `k` (meaningful only
when `hasKey d k`). -/
def keyStr (d : Doc) (k : String) : String :=
  match d.metadata.find? (fun p => p.1 = k) with
  | some p => stringify p.2
  | none => ""

end Adv

/-- Claim-side chunking: the consecutive chunks of at most `c` elements the
spec says a batched ingest commits (last chunk may be smaller).  Junk value
`[]` for `c = 0`, which the ingest path rejects. -/
def chunkList {α : Type} (c : ℕ) : List α → List (List α)
  | [] => []
  | x :: xs =>
    if c = 0 then []
    else (x :: xs).take c :: chunkList c ((x :: xs).drop c)
termination_by l => l.length
decreasing_by
  simp only [List.length_drop, List.length_cons]
  omega

/-! ## Concrete instances used by witnesses and counterexamples -/

/-- A concrete embedding gateway: one-dimensional length embedding. -/
def embLen : String → List ℚ := fun t => [(t.length : ℚ)]

/-- A concrete embedding gateway whose output dimension varies with the
text, exercising the dimension lock. -/
def embRep : String → List ℚ := fun t => List.replicate t.length 1

/-- The empty collection. -/
def emptyStore : Store := ⟨[], none⟩

/-- A one-document collection whose id collides with a later batch insert. -/
def dupBatchStore : Store := ⟨[⟨"x", "old", [1], []⟩], some 1⟩

/-- A concrete three-document collection with two metadata keys, one of
which is missing from two documents. -/
def statsStore : Store :=
  ⟨[⟨"a", "t", [1], [("cat", MValue.str "x"), ("lvl", MValue.num 1)]⟩,
    ⟨"b", "u", [1], [("cat", MValue.str "y")]⟩,
    ⟨"c", "v", [1], [("cat", MValue.str "x")]⟩], some 1⟩

end VecStore

/-! ## Supporting lemmas for the CRUD claims -/

namespace VecStore

theorem find_map_replace (docs : List Doc) (d : Doc)
    (h : docs.any (fun x => x.id = d.id) = true) :
    (docs.map (fun x => if x.id = d.id then d else x)).find?
      (fun x => x.id = d.id) = some d := by
  induction docs with
  | nil => simp at h
  | cons a as ih =>
    simp only [List.any_cons, Bool.or_eq_true, decide_eq_true_eq] at h
    by_cases ha : a.id = d.id
    · simp [List.find?_cons, ha]
    · have hd : decide (a.id = d.id) = false := decide_eq_false ha
      simp only [List.map_cons, List.find?_cons, if_neg ha, hd]
      exact ih (by simpa using h.resolve_left ha)

theorem find_upsert_self (docs : List Doc) (d : Doc) :
    (upsertDoc docs d).find? (fun x => x.id = d.id) = some d := by
  unfold upsertDoc
  split
  · exact find_map_replace docs d (by assumption)
  · rename_i h
    rw [List.find?_append]
    have hnone : docs.find? (fun x => x.id = d.id) = none := by
      rw [List.find?_eq_none]
      intro x hx
      simp only [Bool.not_eq_true, decide_eq_false_iff_not]
      intro hc
      have : docs.any (fun x => x.id = d.id) = true :=
        List.any_eq_true.mpr ⟨x, hx, by simp [hc]⟩
      simp [this] at h
    simp [hnone, List.find?]

theorem find_upsert_self' (docs : List Doc) (id t : String) (e : List ℚ)
    (m : Metadata) :
    (upsertDoc docs (Doc.mk id t e m)).find? (fun x => x.id = id) =
      some (Doc.mk id t e m) :=
  find_upsert_self docs (Doc.mk id t e m)

theorem length_upsert_mem (docs : List Doc) (d : Doc)
    (h : docs.any (fun x => x.id = d.id) = true) :
    (upsertDoc docs d).length = docs.length := by
  unfold upsertDoc
  rw [if_pos h]
  simp

theorem add_document_ok (embed : String → List ℚ) (s : Store) (t : String)
    (m : Option Metadata) (oid : Option String) (g : String) {rid : String}
    (h : (add_document embed s t m oid g).1 = Except.ok rid) :
    rid = oid.getD g ∧
    dimsOk s.dim [(embed t).length] = true ∧
    (add_document embed s t m oid g).2 =
      { docs := upsertDoc s.docs (Doc.mk (oid.getD g) t (embed t) (m.getD []))
        dim := s.dim <|> some (embed t).length } := by
  simp only [add_document, addMany, List.length_cons, List.length_nil, List.map,
    List.zip, List.zipWith, List.foldl, List.head?, Option.map, and_self,
    if_true, true_and] at h
  by_cases hd : dimsOk s.dim [(embed t).length] = true
  · simp only [hd, if_true] at h
    refine ⟨by simpa using h.symm, hd, ?_⟩
    simp [add_document, addMany, List.zip, List.zipWith, hd]
  · simp only [Bool.not_eq_true] at hd
    simp [hd] at h

theorem add_document_dim_error (embed : String → List ℚ) (s : Store)
    (t : String) (m : Option Metadata) (oid : Option String) (g : String)
    (h : dimsOk s.dim [(embed t).length] = false) :
    add_document embed s t m oid g = (Except.error DBError.DimensionMismatch, s) := by
  simp [add_document, addMany, h]

/-! ## Claim theorems: CRUD -/

/-- C1 (round trip): whenever `add(t, m)` succeeds and returns an id, `get`
on that id against the resulting collection yields exactly the text `t` and
the metadata `m`. -/
theorem round_trip_add_get (embed : String → List ℚ) (s : Store) (t : String)
    (m : Metadata) (g : String) (rid : String)
    (h : (add_document embed s t (some m) none g).1 = Except.ok rid) :
    get_document (add_document embed s t (some m) none g).2 rid
      = some (rid, t, m) := by
  obtain ⟨hrid, _, hs⟩ := add_document_ok embed s t (some m) none g h
  simp only [Option.getD_none, Option.getD_some] at hrid hs
  rw [hrid, hs]
  simp only [get_document, getById]
  have hf := find_upsert_self' s.docs g t (embed t) m
  rw [hf]
  rfl

/-- Witness for C1 at a concrete input. -/
theorem round_trip_add_get_witness :
    (add_document embLen emptyStore "hello" (some [("k", MValue.str "v")])
        none "g1").1 = Except.ok "g1"
    ∧ get_document (add_document embLen emptyStore "hello"
        (some [("k", MValue.str "v")]) none "g1").2 "g1"
      = some ("g1", "hello", [("k", MValue.str "v")]) :=
  ⟨rfl, round_trip_add_get embLen emptyStore "hello" [("k", MValue.str "v")]
    "g1" "g1" rfl⟩

/-- C2 (upsert idempotence): a second successful `add` with the same
explicit id overwrites the stored document (a subsequent `get` sees the
second text and metadata) and leaves `count()` unchanged. -/
theorem upsert_same_id_overwrites (embed : String → List ℚ) (s : Store)
    (t1 t2 : String) (m1 m2 : Metadata) (id g1 g2 : String)
    (h1 : (add_document embed s t1 (some m1) (some id) g1).1 = Except.ok id)
    (h2 : (add_document embed (add_document embed s t1 (some m1) (some id) g1).2
            t2 (some m2) (some id) g2).1 = Except.ok id) :
    count_documents (add_document embed
        (add_document embed s t1 (some m1) (some id) g1).2
        t2 (some m2) (some id) g2).2
      = count_documents (add_document embed s t1 (some m1) (some id) g1).2
    ∧ get_document (add_document embed
        (add_document embed s t1 (some m1) (some id) g1).2
        t2 (some m2) (some id) g2).2 id = some (id, t2, m2) := by
  obtain ⟨_, _, hs1⟩ := add_document_ok embed s t1 (some m1) (some id) g1 h1
  obtain ⟨_, _, hs2⟩ := add_document_ok embed
    (add_document embed s t1 (some m1) (some id) g1).2 t2 (some m2) (some id) g2 h2
  simp only [Option.getD_some] at hs1 hs2
  have hfind : ((add_document embed s t1 (some m1) (some id) g1).2).docs.find?
      (fun x => x.id = id) = some (Doc.mk id t1 (embed t1) m1) := by
    rw [hs1]
    exact find_upsert_self' s.docs id t1 (embed t1) m1
  have hmem := List.mem_of_find?_eq_some hfind
  have hp := List.find?_some hfind
  have hany : ((add_document embed s t1 (some m1) (some id) g1).2).docs.any
      (fun x => x.id = id) = true :=
    List.any_eq_true.mpr ⟨_, hmem, hp⟩
  constructor
  · rw [hs2]
    simp only [count_documents, countDocs]
    exact length_upsert_mem _ _ hany
  · rw [hs2]
    simp only [get_document, getById]
    rw [find_upsert_self' _ id t2 (embed t2) m2]
    rfl

/-- Witness for C2 at a concrete input. -/
theorem upsert_same_id_overwrites_witness :
    count_documents (add_document embLen
        (add_document embLen emptyStore "t1" (some []) (some "d") "g1").2
        "t2" (some []) (some "d") "g2").2
      = count_documents (add_document embLen emptyStore "t1" (some [])
          (some "d") "g1").2
    ∧ get_document (add_document embLen
        (add_document embLen emptyStore "t1" (some []) (some "d") "g1").2
        "t2" (some []) (some "d") "g2").2 "d" = some ("d", "t2", []) :=
  upsert_same_id_overwrites embLen emptyStore "t1" "t2" [] [] "d" "g1" "g2"
    rfl rfl

/-- C3 (dimension lock): the first successful insert into a dimensionless
collection locks the dimension to its embedding's length, and any insert
into a collection locked to that dimension whose embedding has a different
length fails with `DimensionMismatch`, leaves the store untouched, and
leaves `count()` unchanged. -/
theorem dimension_lock (embed : String → List ℚ) (s : Store) (t1 : String)
    (m1 : Option Metadata) (oid1 : Option String) (g1 : String)
    (h0 : s.dim = none)
    (h1 : ∃ rid, (add_document embed s t1 m1 oid1 g1).1 = Except.ok rid) :
    ((add_document embed s t1 m1 oid1 g1).2).dim = some (embed t1).length
    ∧ ∀ s2 : Store, s2.dim = some (embed t1).length →
      ∀ (t : String) (m : Option Metadata) (oid : Option String) (g : String),
        (embed t).length ≠ (embed t1).length →
        add_document embed s2 t m oid g
          = (Except.error DBError.DimensionMismatch, s2)
        ∧ count_documents (add_document embed s2 t m oid g).2
          = count_documents s2 := by
  obtain ⟨rid, h1⟩ := h1
  obtain ⟨_, _, hs⟩ := add_document_ok embed s t1 m1 oid1 g1 h1
  constructor
  · rw [hs, h0]
    rfl
  · intro s2 hdim t m oid g hlen
    have hdq : dimsOk s2.dim [(embed t).length] = false := by
      rw [hdim]
      simp [dimsOk, hlen]
    have he := add_document_dim_error embed s2 t m oid g hdq
    exact ⟨he, by rw [he]⟩

/-- Witness for C3 at a concrete input. -/
theorem dimension_lock_witness :
    add_document embRep (add_document embRep emptyStore "ab" none none "g1").2
        "x" none none "g2"
      = (Except.error DBError.DimensionMismatch,
         (add_document embRep emptyStore "ab" none none "g1").2) := by
  have h := dimension_lock embRep emptyStore "ab" none none "g1" rfl ⟨"g1", rfl⟩
  exact (h.2 _ h.1 "x" none none "g2" (by decide)).1

/-- C7 counterexample: a batch add with a too-short metadata list does fail
with `InvalidArgument`, but the trace shows an embedding was computed for
every text before the failure, contradicting the claim that the call fails
before any embedding is computed. -/
theorem batch_mismatch_counterexample :
    (add_documents_batch embLen emptyStore ["a", "b"] (some [[]]) none
        ["i1", "i2"]).1 = Except.error DBError.InvalidArgument
    ∧ (add_documents_batch embLen emptyStore ["a", "b"] (some [[]]) none
        ["i1", "i2"]).2.2 = [Event.embedOne "a", Event.embedOne "b"] :=
  ⟨rfl, rfl⟩

/-- C7 (amended): a batch add whose effective metadata or id list length
differs from the text list's fails with `InvalidArgument` and no write
reaches persistence (the store is returned unchanged), but only after an
embedding has been computed for every text. -/
theorem batch_mismatch_invalid_argument (embed : String → List ℚ) (s : Store)
    (texts : List String) (ms : Option (List Metadata))
    (is0 : Option (List String)) (fresh : List String)
    (h : (is0.getD (fresh.take texts.length)).length ≠ texts.length
       ∨ (ms.getD (texts.map (fun _ => []))).length ≠ texts.length) :
    add_documents_batch embed s texts ms is0 fresh
      = (Except.error DBError.InvalidArgument, s, texts.map Event.embedOne) := by
  simp only [add_documents_batch, addMany]
  have hcond : ¬ ((is0.getD (fresh.take texts.length)).length = texts.length
      ∧ (texts.map embed).length = texts.length
      ∧ (ms.getD (texts.map fun _ => [])).length = texts.length) := by
    simp only [List.length_map]
    tauto
  rw [if_neg hcond]

/-- Witness for the amended C7 at a concrete input. -/
theorem batch_mismatch_invalid_argument_witness :
    add_documents_batch embLen emptyStore ["a", "b"] (some [[]]) none
        ["i1", "i2"]
      = (Except.error DBError.InvalidArgument, emptyStore,
         [Event.embedOne "a", Event.embedOne "b"]) :=
  batch_mismatch_invalid_argument embLen emptyStore ["a", "b"] (some [[]])
    none ["i1", "i2"] (Or.inr (by decide))

/-- C8 counterexample: deleting an absent id returns `true`, not `false` as
the claim states (the persistence delete is a silent no-op, so the wrapper
reaches its `return True`). -/
theorem delete_absent_counterexample :
    ¬ ((delete_document emptyStore "missing").1 = false)
    ∧ getById emptyStore "missing" = none :=
  ⟨by simp [delete_document], rfl⟩

/-- C8 (amended): deleting an id that is not present returns `true`, raises
no error, leaves the store exactly as it was, and leaves `count()`
unchanged. -/
theorem delete_absent_noop (s : Store) (id : String)
    (h : getById s id = none) :
    delete_document s id = (true, s)
    ∧ count_documents (delete_document s id).2 = count_documents s := by
  have hdocs : s.docs.filter (fun d => ¬ [id].contains d.id) = s.docs := by
    rw [List.filter_eq_self]
    intro d hd
    have hne : d.id ≠ id := by
      intro hc
      have := List.find?_eq_none.mp h d hd
      simp [hc] at this
    simp [List.contains, hne]
  have h1 : delete_document s id = (true, s) := by
    simp only [delete_document, deleteByIds]
    rw [hdocs]
  exact ⟨h1, by rw [h1]⟩

/-- Witness for the amended C8 at a concrete input. -/
theorem delete_absent_noop_witness :
    delete_document emptyStore "missing" = (true, emptyStore)
    ∧ count_documents (delete_document emptyStore "missing").2
      = count_documents emptyStore :=
  delete_absent_noop emptyStore "missing" rfl

/-- C10 (update with no fields): `update` with neither new text nor new
metadata returns `false` and performs no write — the resulting store is the
input store itself, so every stored document's text, embedding and metadata
are unchanged. -/
theorem update_without_fields_noop (embed : String → List ℚ) (s : Store)
    (id : String) :
    update_document embed s id none none = (false, s) := rfl

end VecStore

/-! ## Claim theorems: statistics -/

namespace VecStore

theorem mem_foldl_union (ms : List Metadata) (init : Finset String)
    (k : String) :
    k ∈ ms.foldl (fun acc m => acc ∪ (m.map Prod.fst).toFinset) init
      ↔ k ∈ init ∨ ∃ m ∈ ms, ∃ v, (k, v) ∈ m := by
  induction ms generalizing init with
  | nil => simp
  | cons m ms ih =>
    simp only [List.foldl_cons]
    rw [ih]
    have hm : k ∈ (m.map Prod.fst).toFinset ↔ ∃ v, (k, v) ∈ m := by
      simp only [List.mem_toFinset, List.mem_map]
      constructor
      · rintro ⟨⟨p1, p2⟩, hp, he⟩
        cases he
        exact ⟨p2, hp⟩
      · rintro ⟨v, hv⟩
        exact ⟨(k, v), hv, rfl⟩
    simp only [Finset.mem_union, hm, List.mem_cons]
    constructor
    · rintro (⟨h | h⟩ | ⟨m1, hm1, hv⟩)
      · exact Or.inl h
      · exact Or.inr ⟨m, Or.inl rfl, h⟩
      · exact Or.inr ⟨m1, Or.inr hm1, hv⟩
    · rintro (h | ⟨m1, (rfl | hm1), hv⟩)
      · exact Or.inl (Or.inl h)
      · exact Or.inl (Or.inr hv)
      · exact Or.inr ⟨m1, hm1, hv⟩

theorem keyvals_filter_map (docs : List Doc) (k : String) :
    (Adv.keyValues (docs.map (fun d => d.metadata)) k).map Adv.stringify
      = (docs.filter (fun d => Adv.hasKey d k)).map (fun d => Adv.keyStr d k) := by
  induction docs with
  | nil => rfl
  | cons d ds ih =>
    simp only [List.map_cons, Adv.keyValues, List.filterMap_cons,
      List.filter_cons]
    cases hf : d.metadata.find? (fun p => p.1 = k) with
    | none =>
      simp only [Adv.hasKey, hf, Option.isSome_none, Bool.false_eq_true,
        if_false, Option.map_none']
      exact ih
    | some p =>
      have hk : Adv.keyStr d k = Adv.stringify p.2 := by
        unfold Adv.keyStr
        rw [hf]
      simp only [Adv.hasKey, hf, Option.isSome_some, if_true,
        Option.map_some', List.map_cons, hk]
      exact congrArg (List.cons (Adv.stringify p.2)) ih

/-- C9 (amended, statistics correctness on non-empty collections):
`get_statistics` reports the document count; for a non-empty collection it
reports the metadata field set — a key belongs to it exactly when some
stored document's metadata holds it — and, for every key, the number of
distinct stringified values among exactly the documents that have that key.
(On an empty collection both metadata entries are omitted, see the
counterexample.) -/
theorem statistics_nonempty_correct (s : Store) (h : s.docs ≠ []) :
    (Adv.get_statistics s).total_documents = countDocs s
    ∧ ∃ F cnt, (Adv.get_statistics s).metadata_fields = some F
      ∧ (Adv.get_statistics s).metadata_unique_counts = some cnt
      ∧ (∀ k, k ∈ F ↔ ∃ d ∈ s.docs, ∃ v, (k, v) ∈ d.metadata)
      ∧ (∀ k, cnt k = (((s.docs.filter (fun d => Adv.hasKey d k)).map
            (fun d => Adv.keyStr d k)).toFinset).card) := by
  have hms : (s.docs.map (fun d => d.metadata)).isEmpty = false := by
    rcases hsd : s.docs with _ | ⟨d, ds⟩
    · exact absurd hsd h
    · simp [hsd]
  simp only [Adv.get_statistics, hms, Bool.false_eq_true, if_false]
  refine ⟨rfl, Adv.metaKeys (s.docs.map (fun d => d.metadata)),
    Adv.distinctStrCount (s.docs.map (fun d => d.metadata)), rfl, rfl, ?_, ?_⟩
  · intro k
    unfold Adv.metaKeys
    rw [mem_foldl_union]
    simp only [Finset.not_mem_empty, false_or, List.mem_map]
    constructor
    · rintro ⟨m, ⟨d, hd, rfl⟩, v, hv⟩
      exact ⟨d, hd, v, hv⟩
    · rintro ⟨d, hd, v, hv⟩
      exact ⟨d.metadata, ⟨d, hd, rfl⟩, v, hv⟩
  · intro k
    unfold Adv.distinctStrCount
    rw [keyvals_filter_map]

/-- C9 counterexample: on the empty collection the statistics record omits
the metadata field set entirely (the field is `none`), instead of reporting
the empty union of keys as the claim, quantified over every collection
state, requires. -/
theorem statistics_empty_counterexample :
    (Adv.get_statistics emptyStore).metadata_fields = none
    ∧ ¬ ((Adv.get_statistics emptyStore).metadata_fields
          = some (∅ : Finset String)) :=
  ⟨rfl, by simp [Adv.get_statistics, emptyStore]⟩

/-- Witness for the amended C9 at a concrete non-empty collection. -/
theorem statistics_nonempty_witness :
    (Adv.get_statistics statsStore).total_documents = countDocs statsStore
    ∧ ∃ F cnt, (Adv.get_statistics statsStore).metadata_fields = some F
      ∧ (Adv.get_statistics statsStore).metadata_unique_counts = some cnt
      ∧ (∀ k, k ∈ F ↔ ∃ d ∈ statsStore.docs, ∃ v, (k, v) ∈ d.metadata)
      ∧ (∀ k, cnt k = (((statsStore.docs.filter (fun d => Adv.hasKey d k)).map
            (fun d => Adv.keyStr d k)).toFinset).card) :=
  statistics_nonempty_correct statsStore (by decide)

end VecStore

/-! ## Claim theorems: hybrid search -/

namespace VecStore

theorem leCombined_trans (a b c : Adv.HybridItem)
    (h1 : Adv.leCombined a b = true) (h2 : Adv.leCombined b c = true) :
    Adv.leCombined a c = true := by
  simp only [Adv.leCombined, decide_eq_true_eq] at *
  exact h2.trans h1

theorem leCombined_total (a b : Adv.HybridItem) :
    (Adv.leCombined a b || Adv.leCombined b a) = true := by
  simp only [Adv.leCombined, Bool.or_eq_true, decide_eq_true_eq]
  exact le_total b.combined_score a.combined_score

theorem leDistId_trans (a b c : SearchHit)
    (h1 : leDistId a b = true) (h2 : leDistId b c = true) :
    leDistId a c = true := by
  simp only [leDistId, decide_eq_true_eq] at *
  rcases h1 with h1 | ⟨he1, hi1⟩
  · rcases h2 with h2 | ⟨he2, hi2⟩
    · exact Or.inl (h1.trans h2)
    · exact Or.inl (he2 ▸ h1)
  · rcases h2 with h2 | ⟨he2, hi2⟩
    · exact Or.inl (he1 ▸ h2)
    · exact Or.inr ⟨he1.trans he2, hi1.trans hi2⟩

theorem leDistId_total (a b : SearchHit) :
    (leDistId a b || leDistId b a) = true := by
  simp only [leDistId, Bool.or_eq_true, decide_eq_true_eq]
  rcases lt_trichotomy a.distance b.distance with h | h | h
  · exact Or.inl (Or.inl h)
  · rcases le_total a.id b.id with hid | hid
    · exact Or.inl (Or.inr ⟨h, hid⟩)
    · exact Or.inr (Or.inr ⟨h.symm, hid⟩)
  · exact Or.inr (Or.inl h)

theorem search_similar_pairwise (embed : String → List ℚ)
    (dist : List ℚ → List ℚ → ℚ) (s : Store) (q : String) (n : ℕ)
    (flt : Option Metadata) :
    (Adv.search_similar embed dist s q n flt).Pairwise
      (fun a b => leDistId a b = true) := by
  simp only [Adv.search_similar]
  exact List.Pairwise.sublist (List.take_sublist _ _)
    (List.sorted_mergeSort (fun a b c h1 h2 => leDistId_trans a b c h1 h2)
      (fun a b => leDistId_total a b) _)

/-- C4 (hybrid search algorithm): `hybrid_search` computes exactly the
claim's pipeline — fetch `2k` semantic candidates, score each with keyword
score `|q ∩ d| / |q|` (0 for a token-less query), semantic score
`1 - distance`, combined score
`(1 - w) * semantic_score + w * keyword_score`, stable-sort by combined
score descending, truncate to `k` — its `total_found` is the candidate
count, and its output is sorted by combined score descending. -/
theorem hybrid_search_algorithm (embed : String → List ℚ)
    (dist : List ℚ → List ℚ → ℚ) (s : Store) (q : String) (k : ℕ) (w : ℚ) :
    (Adv.hybrid_search embed dist s q k w).1 = Adv.hybridSpec embed dist s q k w
    ∧ (Adv.hybrid_search embed dist s q k w).2
      = (Adv.search_similar embed dist s q (2 * k) none).length
    ∧ (Adv.hybrid_search embed dist s q k w).1.Pairwise
        (fun a b => b.combined_score ≤ a.combined_score) := by
  have hmul : k * 2 = 2 * k := Nat.mul_comm k 2
  have hfun : Adv.specScore w q = Adv.scoreItem w (Adv.tokenSet q) := rfl
  refine ⟨?_, ?_, ?_⟩
  · simp only [Adv.hybrid_search, Adv.hybridSpec, hfun, hmul]
  · simp only [Adv.hybrid_search, List.length_map, hmul]
  · have hp := List.sorted_mergeSort
      (fun a b c h1 h2 => leCombined_trans a b c h1 h2)
      (fun a b => leCombined_total a b)
      ((Adv.search_similar embed dist s q (k * 2) none).map
        (Adv.scoreItem w (Adv.tokenSet q)))
    have hout : (Adv.hybrid_search embed dist s q k w).1.Pairwise
        (fun a b => Adv.leCombined a b = true) :=
      List.Pairwise.sublist (List.take_sublist _ _) hp
    exact hout.imp (fun h => by
      simpa [Adv.leCombined] using h)

/-- C5 (weight extremes): with `keyword_weight = 0` the ids returned by
`hybrid_search` coincide with the ids returned by `search_similar` at the
same query and `k`; with `keyword_weight = 1` the output is the stable
descending sort of the candidates by the token-overlap fraction alone, and
is ordered by descending keyword score. -/
theorem hybrid_weight_extremes (embed : String → List ℚ)
    (dist : List ℚ → List ℚ → ℚ) (s : Store) (q : String) (k : ℕ) :
    ((Adv.hybrid_search embed dist s q k 0).1.map (fun h => h.id)
        = (Adv.search_similar embed dist s q k none).map (fun h => h.id))
    ∧ ((Adv.hybrid_search embed dist s q k 1).1
        = (((Adv.search_similar embed dist s q (k * 2) none).map
            (Adv.pureKeywordItem q)).mergeSort Adv.leCombined).take k)
    ∧ (Adv.hybrid_search embed dist s q k 1).1.Pairwise
        (fun a b => b.keyword_score ≤ a.keyword_score) := by
  have hfun1 : Adv.scoreItem 1 (Adv.tokenSet q) = Adv.pureKeywordItem q := by
    funext r
    simp only [Adv.scoreItem, Adv.pureKeywordItem]
    have : (1 - (1 : ℚ)) * (1 - r.distance)
        + 1 * Adv.kwScore (Adv.tokenSet q) r.document
        = Adv.kwScore (Adv.tokenSet q) r.document := by ring
    rw [this]
  refine ⟨?_, ?_, ?_⟩
  · have hsem := search_similar_pairwise embed dist s q (k * 2) none
    have hpw : ((Adv.search_similar embed dist s q (k * 2) none).map
        (Adv.scoreItem 0 (Adv.tokenSet q))).Pairwise
        (fun a b => Adv.leCombined a b = true) := by
      rw [List.pairwise_map]
      refine hsem.imp (fun hab => ?_)
      rename_i a b
      have had : a.distance ≤ b.distance := by
        simp only [leDistId, decide_eq_true_eq] at hab
        rcases hab with h | ⟨h, _⟩
        · exact le_of_lt h
        · exact le_of_eq h
      simp only [Adv.leCombined, Adv.scoreItem, decide_eq_true_eq]
      ring_nf
      linarith
    have hms := List.mergeSort_of_sorted hpw
    simp only [Adv.hybrid_search, hms]
    rw [← List.map_take]
    have hks : (Adv.search_similar embed dist s q (k * 2) none).take k
        = Adv.search_similar embed dist s q k none := by
      simp only [Adv.search_similar]
      rw [List.take_take]
      have : min k (k * 2) = k := by omega
      rw [this]
    rw [hks, List.map_map]
    rfl
  · simp only [Adv.hybrid_search, hfun1]
  · have hp := List.sorted_mergeSort
      (fun a b c h1 h2 => leCombined_trans a b c h1 h2)
      (fun a b => leCombined_total a b)
      ((Adv.search_similar embed dist s q (k * 2) none).map
        (Adv.scoreItem 1 (Adv.tokenSet q)))
    have hout : (Adv.hybrid_search embed dist s q k 1).1.Pairwise
        (fun a b => Adv.leCombined a b = true) :=
      List.Pairwise.sublist (List.take_sublist _ _) hp
    have hmemc : ∀ x ∈ (Adv.hybrid_search embed dist s q k 1).1,
        x.combined_score = x.keyword_score := by
      intro x hx
      have hx2 : x ∈ ((Adv.search_similar embed dist s q (k * 2) none).map
          (Adv.scoreItem 1 (Adv.tokenSet q))).mergeSort Adv.leCombined :=
        List.Sublist.mem hx (List.take_sublist _ _)
      have hx3 := List.mem_mergeSort.mp hx2
      rw [hfun1] at hx3
      obtain ⟨r, hr, rfl⟩ := List.mem_map.mp hx3
      rfl
    refine hout.imp_of_mem (fun ha hb hr => ?_)
    rename_i a b
    rw [← hmemc a ha, ← hmemc b hb]
    simpa [Adv.leCombined] using hr

end VecStore

/-! ## Claim theorems: batch chunking -/

namespace VecStore

theorem chunkList_nil {α : Type} (c : ℕ) : chunkList c ([] : List α) = [] := by
  rw [chunkList]

theorem chunkList_cons {α : Type} (c : ℕ) (l : List α) (hc : c ≠ 0)
    (hl : l ≠ []) :
    chunkList c l = l.take c :: chunkList c (l.drop c) := by
  obtain ⟨x, xs, rfl⟩ := List.exists_cons_of_ne_nil hl
  rw [chunkList]
  rw [if_neg hc]

theorem ceil_div_succ (c m : ℕ) (hc : 0 < c) (hm : 1 ≤ m) :
    (m + c - 1) / c = ((m - c) + c - 1) / c + 1 := by
  rcases le_or_lt c m with h | h
  · have he : m + c - 1 = ((m - c) + c - 1) + c := by omega
    rw [he, Nat.add_div_right _ hc]
  · have h1 : m - c = 0 := by omega
    have h2 : (m + c - 1) / c = 1 := by
      apply Nat.div_eq_of_lt_le
      · omega
      · omega
    have h3 : (0 + c - 1) / c = 0 := Nat.div_eq_of_lt (by omega)
    rw [h1, h2, h3]

theorem ceil_succ_pos (c m k : ℕ) (hc : 0 < c)
    (h : k + 1 = (m + c - 1) / c) : 1 ≤ m := by
  by_contra hm
  have hm0 : m = 0 := by omega
  rw [hm0, Nat.zero_add, Nat.div_eq_of_lt (by omega)] at h
  omega

theorem chunkList_flatten {α : Type} (c : ℕ) (hc : c ≠ 0) (l : List α) :
    (chunkList c l).flatten = l := by
  by_cases hl : l = []
  · rw [hl, chunkList_nil]
    rfl
  · rw [chunkList_cons c l hc hl, List.flatten_cons,
      chunkList_flatten c hc (l.drop c)]
    exact List.take_append_drop c l
termination_by l.length
decreasing_by
  have h3 := List.length_pos.mpr hl
  simp only [List.length_drop]
  omega

theorem chunkList_length {α : Type} (c : ℕ) (hc : c ≠ 0) (l : List α) :
    (chunkList c l).length = (l.length + c - 1) / c := by
  by_cases hl : l = []
  · rw [hl, chunkList_nil]
    simp only [List.length_nil]
    exact (Nat.div_eq_of_lt (by omega)).symm
  · rw [chunkList_cons c l hc hl]
    simp only [List.length_cons, chunkList_length c hc (l.drop c),
      List.length_drop]
    have hm : 1 ≤ l.length := List.length_pos.mpr hl
    exact (ceil_div_succ c l.length (by omega) hm).symm
termination_by l.length
decreasing_by
  have h3 := List.length_pos.mpr hl
  simp only [List.length_drop]
  omega

theorem chunkList_mem {α : Type} (c : ℕ) (hc : c ≠ 0) (l : List α)
    (ch : List α) (h : ch ∈ chunkList c l) : ch.length ≤ c ∧ ch ≠ [] := by
  by_cases hl : l = []
  · rw [hl, chunkList_nil] at h
    exact absurd h (List.not_mem_nil ch)
  · rw [chunkList_cons c l hc hl] at h
    rcases List.mem_cons.mp h with h | h
    · subst h
      constructor
      · simp only [List.length_take]
        omega
      · intro he
        have := congrArg List.length he
        simp only [List.length_take, List.length_nil] at this
        have h3 := List.length_pos.mpr hl
        omega
    · exact chunkList_mem c hc (l.drop c) ch h
termination_by l.length
decreasing_by
  have h3 := List.length_pos.mpr hl
  simp only [List.length_drop]
  omega

theorem upsert_append_fresh (docs : List Doc) (d : Doc)
    (h : docs.any (fun x => x.id = d.id) = false) :
    upsertDoc docs d = docs ++ [d] := by
  unfold upsertDoc
  rw [if_neg]
  simp [h]

theorem find_map_replace_other (docs : List Doc) (d : Doc) (x : String)
    (hne : d.id ≠ x) :
    (docs.map (fun y => if y.id = d.id then d else y)).find?
        (fun y => y.id = x)
      = docs.find? (fun y => y.id = x) := by
  induction docs with
  | nil => rfl
  | cons a as ih =>
    simp only [List.map_cons, List.find?_cons]
    by_cases ha : a.id = d.id
    · have h1 : decide (d.id = x) = false := decide_eq_false hne
      have h2 : decide (a.id = x) = false := decide_eq_false (by
        rw [ha]; exact hne)
      simp only [if_pos ha, h1, h2]
      exact ih
    · simp only [if_neg ha]
      cases hax : decide (a.id = x) with
      | true => rfl
      | false => exact ih

theorem find_upsert_other (docs : List Doc) (d : Doc) (x : String)
    (hne : d.id ≠ x) :
    (upsertDoc docs d).find? (fun y => y.id = x)
      = docs.find? (fun y => y.id = x) := by
  unfold upsertDoc
  split
  · exact find_map_replace_other docs d x hne
  · rw [List.find?_append]
    have h1 : [d].find? (fun y => y.id = x) = none := by
      simp [List.find?, hne]
    rw [h1]
    cases docs.find? (fun y => y.id = x) <;> rfl

theorem foldl_upsert_count (rows : List Doc) :
    ∀ (docs : List Doc),
      (rows.map (fun d => d.id)).Nodup →
      (∀ r ∈ rows, docs.any (fun y => y.id = r.id) = false) →
      (rows.foldl upsertDoc docs).length = docs.length + rows.length := by
  induction rows with
  | nil => intro docs _ _; simp
  | cons r rs ih =>
    intro docs hnd hf
    simp only [List.foldl_cons]
    have hfr : docs.any (fun y => y.id = r.id) = false :=
      hf r (List.mem_cons_self r rs)
    rw [upsert_append_fresh docs r hfr]
    simp only [List.map_cons, List.nodup_cons] at hnd
    have hstep : ∀ z ∈ rs, (docs ++ [r]).any (fun y => y.id = z.id) = false := by
      intro z hz
      rw [List.any_append]
      have h1 : docs.any (fun y => y.id = z.id) = false :=
        hf z (List.mem_cons_of_mem r hz)
      have h2 : r.id ≠ z.id := by
        intro he
        exact hnd.1 (he ▸ List.mem_map_of_mem (fun d => d.id) hz)
      simp [h1, h2]
    rw [ih (docs ++ [r]) hnd.2 hstep]
    simp only [List.length_append, List.length_cons, List.length_nil]
    omega

theorem foldl_upsert_find_preserve (rows : List Doc) :
    ∀ (docs : List Doc) (x : String),
      (∀ r ∈ rows, r.id ≠ x) →
      (rows.foldl upsertDoc docs).find? (fun y => y.id = x)
        = docs.find? (fun y => y.id = x) := by
  induction rows with
  | nil => intro docs x _; rfl
  | cons r rs ih =>
    intro docs x hne
    simp only [List.foldl_cons]
    rw [ih (upsertDoc docs r) x (fun z hz => hne z (List.mem_cons_of_mem r hz))]
    exact find_upsert_other docs r x (hne r (List.mem_cons_self r rs))

theorem addMany_ok (s : Store) (ids texts : List String)
    (embeds : List (List ℚ)) (mds : List Metadata) (s1 : Store)
    (h : addMany s ids texts embeds mds = Except.ok s1) :
    ids.length = texts.length ∧ embeds.length = texts.length
    ∧ mds.length = texts.length
    ∧ s1.docs = ((ids.zip (texts.zip (embeds.zip mds))).map
        (fun r => Doc.mk r.1 r.2.1 r.2.2.1 r.2.2.2)).foldl upsertDoc s.docs := by
  unfold addMany at h
  split at h
  · split at h
    · rename_i hlen hdim
      refine ⟨hlen.1, hlen.2.1, hlen.2.2, ?_⟩
      injection h with h3
      rw [← h3]
    · simp at h
  · simp at h

theorem rows_map_id (ids texts : List String) (embeds : List (List ℚ))
    (mds : List Metadata)
    (h1 : ids.length = texts.length) (h2 : embeds.length = texts.length)
    (h3 : mds.length = texts.length) :
    ((ids.zip (texts.zip (embeds.zip mds))).map
        (fun r => Doc.mk r.1 r.2.1 r.2.2.1 r.2.2.2)).map (fun d => d.id)
      = ids := by
  rw [List.map_map]
  have hc : ((fun d => d.id) ∘
      (fun r : String × String × List ℚ × Metadata =>
        Doc.mk r.1 r.2.1 r.2.2.1 r.2.2.2)) = Prod.fst := by
    funext r
    rfl
  rw [hc]
  apply List.map_fst_zip
  simp only [List.length_zip]
  omega

theorem any_false_of_find_none (docs : List Doc) (x : String)
    (h : docs.find? (fun y => y.id = x) = none) :
    docs.any (fun y => y.id = x) = false := by
  rw [List.find?_eq_none] at h
  rw [List.any_eq_false]
  intro y hy
  simpa using h y hy

theorem addMany_count (s : Store) (ids texts : List String)
    (embeds : List (List ℚ)) (mds : List Metadata) (s1 : Store)
    (h : addMany s ids texts embeds mds = Except.ok s1)
    (hnd : ids.Nodup) (hfresh : ∀ x ∈ ids, getById s x = none) :
    countDocs s1 = countDocs s + ids.length := by
  obtain ⟨h1, h2, h3, hdocs⟩ := addMany_ok s ids texts embeds mds s1 h
  have hrid := rows_map_id ids texts embeds mds h1 h2 h3
  simp only [countDocs, hdocs]
  rw [foldl_upsert_count]
  · simp only [List.length_map, List.length_zip]
    omega
  · rw [hrid]
    exact hnd
  · intro r hr
    have hrin : r.id ∈ ids := by
      rw [← hrid]
      exact List.mem_map_of_mem (fun d => d.id) hr
    exact any_false_of_find_none s.docs r.id (hfresh r.id hrin)

theorem addMany_find_preserve (s : Store) (ids texts : List String)
    (embeds : List (List ℚ)) (mds : List Metadata) (s1 : Store)
    (h : addMany s ids texts embeds mds = Except.ok s1)
    (x : String) (hx : ¬ x ∈ ids) :
    getById s1 x = getById s x := by
  obtain ⟨h1, h2, h3, hdocs⟩ := addMany_ok s ids texts embeds mds s1 h
  have hrid := rows_map_id ids texts embeds mds h1 h2 h3
  simp only [getById, hdocs]
  apply foldl_upsert_find_preserve
  intro r hr he
  apply hx
  rw [← hrid, ← he]
  exact List.mem_map_of_mem (fun d => d.id) hr

theorem ingestGo_zero (embed : String → List ℚ) (c : ℕ)
    (texts : List String) (mds : List Metadata) (ids : List String)
    (i : ℕ) (s : Store) (acc : List String) (tr : List Event) :
    Adv.ingestGo embed c texts mds ids 0 i s acc tr = (Except.ok acc, s, tr) :=
  rfl

theorem ingestGo_succ (embed : String → List ℚ) (c : ℕ)
    (texts : List String) (mds : List Metadata) (ids : List String)
    (k i : ℕ) (s : Store) (acc : List String) (tr : List Event) :
    Adv.ingestGo embed c texts mds ids (k + 1) i s acc tr =
      match addMany s ((ids.drop i).take c) ((texts.drop i).take c)
          (((texts.drop i).take c).map embed) ((mds.drop i).take c) with
      | Except.ok s1 =>
        Adv.ingestGo embed c texts mds ids k (i + c) s1
          (acc ++ (ids.drop i).take c)
          (tr ++ [Event.embedBatch ((texts.drop i).take c),
                  Event.addCall ((ids.drop i).take c)])
      | Except.error e =>
        (Except.error e, s, tr ++ [Event.embedBatch ((texts.drop i).take c)]) :=
  rfl

theorem ingestGo_run (embed : String → List ℚ) (c : ℕ) (texts : List String)
    (mds : List Metadata) (ids : List String) (hc : 0 < c)
    (hlen : ids.length = texts.length) :
    ∀ (k i : ℕ) (s : Store) (acc : List String) (tr : List Event)
      (out : List String),
      k = ((texts.length - i) + c - 1) / c →
      (Adv.ingestGo embed c texts mds ids k i s acc tr).1 = Except.ok out →
      out = acc ++ ids.drop i
      ∧ (Adv.ingestGo embed c texts mds ids k i s acc tr).2.2
        = tr ++ (((chunkList c (texts.drop i)).zip
            (chunkList c (ids.drop i))).map
            (fun p => [Event.embedBatch p.1, Event.addCall p.2])).flatten := by
  intro k
  induction k with
  | zero =>
    intro i s acc tr out hk h
    have hm : texts.length - i = 0 := by
      by_contra hm1
      have hm2 : 1 ≤ ((texts.length - i) + c - 1) / c := by
        rw [Nat.le_div_iff_mul_le hc]
        omega
      omega
    have htd : texts.drop i = [] := List.drop_eq_nil_of_le (by omega)
    have hid : ids.drop i = [] := List.drop_eq_nil_of_le (by omega)
    rw [ingestGo_zero] at h ⊢
    constructor
    · injection h with h1
      rw [← h1, hid]
      simp
    · rw [htd, hid, chunkList_nil]
      simp
  | succ k ih =>
    intro i s acc tr out hk h
    have hm : 1 ≤ texts.length - i := ceil_succ_pos c (texts.length - i) k hc hk
    rw [ingestGo_succ] at h ⊢
    cases haddm : addMany s ((ids.drop i).take c) ((texts.drop i).take c)
        (((texts.drop i).take c).map embed) ((mds.drop i).take c) with
    | error e =>
      rw [haddm] at h
      simp at h
    | ok s1 =>
      rw [haddm] at h
      dsimp only at h ⊢
      have hk2 : k = ((texts.length - (i + c)) + c - 1) / c := by
        have hstep := ceil_div_succ c (texts.length - i) hc hm
        rw [hstep] at hk
        have he : texts.length - i - c = texts.length - (i + c) := by omega
        rw [he] at hk
        omega
      obtain ⟨ho, ht⟩ := ih (i + c) s1 (acc ++ (ids.drop i).take c)
        (tr ++ [Event.embedBatch ((texts.drop i).take c),
                Event.addCall ((ids.drop i).take c)]) out hk2 h
      constructor
      · rw [ho, List.append_assoc]
        congr 1
        rw [← List.drop_drop]
        exact List.take_append_drop c (ids.drop i)
      · rw [ht]
        have htne : texts.drop i ≠ [] := by
          intro he
          have := List.drop_eq_nil_iff.mp he
          omega
        have hine : ids.drop i ≠ [] := by
          intro he
          have := List.drop_eq_nil_iff.mp he
          omega
        rw [chunkList_cons c (texts.drop i) (by omega) htne,
            chunkList_cons c (ids.drop i) (by omega) hine]
        simp only [List.zip_cons_cons, List.map_cons, List.flatten_cons,
          List.drop_drop]
        simp [List.append_assoc]

theorem ingestGo_count (embed : String → List ℚ) (c : ℕ)
    (texts : List String) (mds : List Metadata) (ids : List String)
    (hc : 0 < c) (hlen : ids.length = texts.length) :
    ∀ (k i : ℕ) (s : Store) (acc : List String) (tr : List Event)
      (out : List String),
      k = ((texts.length - i) + c - 1) / c →
      (ids.drop i).Nodup →
      (∀ x ∈ ids.drop i, getById s x = none) →
      (Adv.ingestGo embed c texts mds ids k i s acc tr).1 = Except.ok out →
      countDocs (Adv.ingestGo embed c texts mds ids k i s acc tr).2.1
        = countDocs s + (texts.length - i) := by
  intro k
  induction k with
  | zero =>
    intro i s acc tr out hk hnd hfresh h
    have hm : texts.length - i = 0 := by
      by_contra hm1
      have hm2 : 1 ≤ ((texts.length - i) + c - 1) / c := by
        rw [Nat.le_div_iff_mul_le hc]
        omega
      omega
    rw [ingestGo_zero]
    dsimp only
    omega
  | succ k ih =>
    intro i s acc tr out hk hnd hfresh h
    have hm : 1 ≤ texts.length - i := ceil_succ_pos c (texts.length - i) k hc hk
    rw [ingestGo_succ] at h ⊢
    cases haddm : addMany s ((ids.drop i).take c) ((texts.drop i).take c)
        (((texts.drop i).take c).map embed) ((mds.drop i).take c) with
    | error e =>
      rw [haddm] at h
      simp at h
    | ok s1 =>
      rw [haddm] at h
      dsimp only at h ⊢
      have hk2 : k = ((texts.length - (i + c)) + c - 1) / c := by
        have hstep := ceil_div_succ c (texts.length - i) hc hm
        rw [hstep] at hk
        have he : texts.length - i - c = texts.length - (i + c) := by omega
        rw [he] at hk
        omega
      have hbnd : ((ids.drop i).take c).Nodup :=
        List.Nodup.sublist (List.take_sublist c (ids.drop i)) hnd
      have hbfresh : ∀ x ∈ (ids.drop i).take c, getById s x = none :=
        fun x hx => hfresh x (List.mem_of_mem_take hx)
      have hcnt1 : countDocs s1 = countDocs s + ((ids.drop i).take c).length :=
        addMany_count s ((ids.drop i).take c) ((texts.drop i).take c)
          (((texts.drop i).take c).map embed) ((mds.drop i).take c) s1 haddm
          hbnd hbfresh
      have hnd2 : (ids.drop (i + c)).Nodup := by
        rw [← List.drop_drop]
        exact List.Nodup.sublist (List.drop_sublist c (ids.drop i)) hnd
      have hfresh2 : ∀ x ∈ ids.drop (i + c), getById s1 x = none := by
        intro x hx
        have hx1 : x ∈ (ids.drop i).drop c := by
          rw [List.drop_drop]
          exact hx
        have hsplit : ((ids.drop i).take c ++ (ids.drop i).drop c).Nodup := by
          rw [List.take_append_drop]
          exact hnd
        have hdisj := (List.nodup_append.mp hsplit).2.2
        have hxni : ¬ x ∈ (ids.drop i).take c := by
          intro hxin
          exact hdisj hxin hx1
        rw [addMany_find_preserve s ((ids.drop i).take c)
          ((texts.drop i).take c) (((texts.drop i).take c).map embed)
          ((mds.drop i).take c) s1 haddm x hxni]
        exact hfresh x (List.mem_of_mem_drop hx1)
      have hrec := ih (i + c) s1 (acc ++ (ids.drop i).take c)
        (tr ++ [Event.embedBatch ((texts.drop i).take c),
                Event.addCall ((ids.drop i).take c)]) out hk2 hnd2 hfresh2 h
      rw [hrec, hcnt1]
      simp only [List.length_take, List.length_drop]
      omega

/-- C6 counterexample: a fully successful chunked batch add whose ids
collide (one with a stored document, one within the batch) returns all
three ids but raises the count only from 1 to 2, not by n = 3 as the claim,
quantified over every input, requires. -/
theorem batch_chunking_count_counterexample :
    (Adv.add_documents_batch embLen dupBatchStore ["t1", "t2", "t3"]
        [[], [], []] ["x", "y", "y"] 2).1 = Except.ok ["x", "y", "y"]
    ∧ countDocs (Adv.add_documents_batch embLen dupBatchStore
        ["t1", "t2", "t3"] [[], [], []] ["x", "y", "y"] 2).2.1 = 2
    ∧ countDocs dupBatchStore = 1
    ∧ (2 : ℕ) ≠ 1 + 3 :=
  ⟨rfl, rfl, rfl, by decide⟩

/-- C6 (amended): a fully successful chunked batch add over three
equal-length lists returns the input ids in order; its trace is exactly one
batched embedding computation followed by one persistence add per
consecutive chunk, committed in input order; the chunks number
`⌈n / c⌉`, each has at most `c` elements and none is empty, and their
concatenations restore the inputs; and when the ids are pairwise distinct
and none is already stored, `count()` grows by exactly `n`. -/
theorem batch_chunking_correct (embed : String → List ℚ) (s : Store)
    (texts : List String) (mds : List Metadata) (ids : List String)
    (c : ℕ) (out : List String)
    (hc : 0 < c) (hm : mds.length = texts.length)
    (hi : ids.length = texts.length)
    (h : (Adv.add_documents_batch embed s texts mds ids c).1 = Except.ok out) :
    out = ids
    ∧ (Adv.add_documents_batch embed s texts mds ids c).2.2
      = (((chunkList c texts).zip (chunkList c ids)).map
          (fun p => [Event.embedBatch p.1, Event.addCall p.2])).flatten
    ∧ (chunkList c texts).length = (texts.length + c - 1) / c
    ∧ (chunkList c texts).flatten = texts
    ∧ (∀ ch ∈ chunkList c texts, ch.length ≤ c ∧ ch ≠ [])
    ∧ (chunkList c ids).flatten = ids
    ∧ (ids.Nodup → (∀ x ∈ ids, getById s x = none) →
        countDocs (Adv.add_documents_batch embed s texts mds ids c).2.1
          = countDocs s + texts.length) := by
  have hc0 : ¬ c = 0 := by omega
  have hw : Adv.add_documents_batch embed s texts mds ids c
      = Adv.ingestGo embed c texts mds ids
          ((texts.length + c - 1) / c) 0 s [] [] := by
    simp [Adv.add_documents_batch, hc0]
  rw [hw] at h ⊢
  obtain ⟨ho, ht⟩ := ingestGo_run embed c texts mds ids hc hi
    ((texts.length + c - 1) / c) 0 s [] [] out rfl h
  refine ⟨?_, ?_, chunkList_length c hc0 texts, chunkList_flatten c hc0 texts,
    fun ch hch => chunkList_mem c hc0 texts ch hch,
    chunkList_flatten c hc0 ids, ?_⟩
  · rw [ho]
    simp
  · rw [ht]
    simp
  · intro hnd hfresh
    have hcnt := ingestGo_count embed c texts mds ids hc hi
      ((texts.length + c - 1) / c) 0 s [] [] out rfl
      (by simpa using hnd) (by simpa using hfresh) h
    simpa using hcnt

/-- Witness for the amended C6 at a concrete fresh, duplicate-free batch. -/
theorem batch_chunking_correct_witness :
    (Adv.add_documents_batch embLen emptyStore ["a", "bb", "ccc"]
        [[], [], []] ["i1", "i2", "i3"] 2).1 = Except.ok ["i1", "i2", "i3"]
    ∧ (Adv.add_documents_batch embLen emptyStore ["a", "bb", "ccc"]
        [[], [], []] ["i1", "i2", "i3"] 2).2.2
      = (((chunkList 2 ["a", "bb", "ccc"]).zip
          (chunkList 2 ["i1", "i2", "i3"])).map
          (fun p => [Event.embedBatch p.1, Event.addCall p.2])).flatten
    ∧ countDocs (Adv.add_documents_batch embLen emptyStore ["a", "bb", "ccc"]
        [[], [], []] ["i1", "i2", "i3"] 2).2.1
      = countDocs emptyStore + (["a", "bb", "ccc"] : List String).length :=
  have h := batch_chunking_correct embLen emptyStore ["a", "bb", "ccc"]
    [[], [], []] ["i1", "i2", "i3"] 2 ["i1", "i2", "i3"]
    (by decide) rfl rfl rfl
  ⟨rfl, h.2.1, h.2.2.2.2.2.2 (by decide) (by decide)⟩

end VecStore
